import Mathlib

/-!
Verification of the girc command codec (`girc.go`).

Wire strings are modelled as lists of characters (`Str`), so that the
splitting and joining done by the codec can be reasoned about directly.
A call of a Go function that returns `(value, error)` and may also panic
is modelled by `GoResult`.
-/

namespace Girc

/-- Strings on the wire, modelled as lists of characters. -/
abbrev Str := List Char

/-- Conversion from a Lean string literal to the model's strings. -/
def str (s : String) : Str := s.data

/-- Outcome of calling a Go function: a returned value, a returned
error (with its message), or a runtime panic. -/
inductive GoResult (α : Type) where
  | ok (val : α)
  | err (msg : String)
  | panic
deriving DecidableEq, Repr

/-- `true` exactly on `GoResult.err`. -/
def GoResult.isErr {α : Type} : GoResult α → Bool
  | .err _ => true
  | _ => false

/-- `struct Command` of girc.go (lines 20-24): source hostname, type of
the command (field `Type` in Go, `Typ` here since `Type` is a Lean
keyword), and its arguments. -/
structure Command where
  Source : Str
  Typ : Str
  Args : List Str
deriving DecidableEq, Repr

/-- The protocol line terminator CR LF. -/
def crlf : Str := ['\r', '\n']

/-- `strings.HasPrefix(s, ":")` of Go. -/
def startsColon : Str → Bool
  | [] => false
  | c :: _ => c == ':'

/-- `strings.Split(s, " ")` of Go: splits at every space; the result is
never empty, and splitting the empty string yields `[[]]`. -/
def splitSp : Str → List Str
  | [] => [[]]
  | c :: cs =>
    if c = ' ' then [] :: splitSp cs
    else
      match splitSp cs with
      | [] => [[c]]
      | t :: ts => (c :: t) :: ts

/-- `strings.Join(parts, " ")` of Go. -/
def joinSp : List Str → Str
  | [] => []
  | [a] => a
  | a :: b :: rest => a ++ ' ' :: joinSp (b :: rest)

/-- `strings.TrimSuffix(s, "\r\n")` of Go: removes one trailing CR LF
if present. -/
def trimCrlf (s : Str) : Str :=
  match s.reverse with
  | '\n' :: '\r' :: t => t.reverse
  | _ => s

/-- The assignment `command.Args[len(command.Args)-1] =
strings.TrimSuffix(..., "\r\n")` of girc.go line 265, applied to a
nonempty list; on `[]` that assignment panics, which the caller models. -/
def trimLast : List Str → List Str
  | [] => []
  | [a] => [trimCrlf a]
  | a :: b :: rest => a :: trimLast (b :: rest)

/-- `func (command *Command) Raw() (string, error)` of girc.go lines
56-76.  With an empty argument list the slice expression
`command.Args[0 : len(command.Args)-1]` panics, modelled by
`GoResult.panic`.  Otherwise a space inside a non-final argument
returns the error of line 64, and the wire line is the space-join of
source (when non-empty), type, the non-final arguments, and the final
argument — prefixed by ':' when it contains a space — plus CR LF. -/
def Raw (c : Command) : GoResult Str :=
  match c.Args.getLast? with
  | none => GoResult.panic
  | some final =>
    if ∃ a ∈ c.Args.dropLast, ' ' ∈ a then
      GoResult.err "nonfinal argument contains space"
    else
      GoResult.ok (joinSp
        ((if c.Source = [] then [] else [c.Source]) ++ [c.Typ] ++
          c.Args.dropLast ++
          [if ' ' ∈ final then ':' :: final else final]) ++ crlf)

/-- The argument-collection loop of girc.go lines 248-263: tokens are
taken as arguments until one with a ':' in front is found; from there
on, that token (its ':' dropped) and every later token are rejoined
with single spaces into one final argument. -/
def collectArgs (toks : List Str) : List Str :=
  match toks.dropWhile (fun a => !(startsColon a)) with
  | [] => toks.takeWhile (fun a => !(startsColon a))
  | m :: tailToks =>
    toks.takeWhile (fun a => !(startsColon a)) ++ [joinSp (m.drop 1 :: tailToks)]

/-- The tail of `rawToCommand` (girc.go lines 247-267) once source,
type and the remaining tokens are known: collect the arguments, then
trim CR LF off the last argument — an assignment that panics when no
argument was collected. -/
def finishArgs (src ty : Str) (toks : List Str) : GoResult Command :=
  match collectArgs toks with
  | [] => GoResult.panic
  | a :: rest => GoResult.ok ⟨src, ty, trimLast (a :: rest)⟩

/-- `func rawToCommand(raw string) (*Command, error)` of girc.go lines
229-268: split on spaces, fail for fewer than two tokens, read the
source off a leading ':' token, then collect arguments. -/
def rawToCommand (raw : Str) : GoResult Command :=
  match splitSp raw with
  | t0 :: t1 :: rest =>
    if startsColon t0 then finishArgs (t0.drop 1) t1 rest
    else finishArgs [] t0 (t1 :: rest)
  | _ => GoResult.err "invalid command (less than two entries in command)"

/-- The serialization performed by `func (connection *Connection)
Send(cmdtype string, args ...string)` of girc.go lines 105-114: it
builds a Command with empty source and hands it to `Raw` via
`SendCommand`. -/
def sendLine (cmdtype : Str) (args : List Str) : GoResult Str :=
  Raw ⟨[], cmdtype, args⟩

/-- Protocol action taken by the keepalive responder for one received
command. -/
inductive KAction where
  | ignore
  | reportMalformed
  | reply (cmd : Command)
deriving DecidableEq, Repr

/-- The keepalive responder body of girc.go lines 196-202: on a PING
with at least one argument it sends `PONG <first argument>`; on a PING
without arguments it logs an error and sends nothing; other commands
are ignored. -/
def keepaliveAct (c : Command) : KAction :=
  if c.Typ = str "PING" then
    match c.Args with
    | [] => KAction.reportMalformed
    | a :: _ => KAction.reply ⟨[], str "PONG", [a]⟩
  else
    KAction.ignore

/-- Modelled from the spec: the serialization behaviour described in
§4.1 — "emits `source` (if non-empty) and `type` space-separated,
followed by each non-final argument verbatim, followed by the final
argument — prefixed with `:` if and only if it contains a space —
terminated by the protocol's line terminator (CR LF)" — written as
direct concatenation, to be compared with `Raw`. -/
def serializeSpec (c : Command) : Str :=
  (if c.Source = [] then [] else c.Source ++ [' ']) ++ c.Typ ++
    (c.Args.dropLast.map (fun a => ' ' :: a)).flatten ++
    [' '] ++
    (if ' ' ∈ c.Args.getLastD [] then [':'] else []) ++ c.Args.getLastD [] ++
    crlf

/-! ### Properties of the splitting and joining primitives -/

theorem splitSp_ne_nil : ∀ s : Str, splitSp s ≠ []
  | [] => by simp [splitSp]
  | c :: cs => by
    simp only [splitSp]
    split
    · simp
    · cases h : splitSp cs <;> simp

theorem joinSp_cons (a : Str) {l : List Str} (h : l ≠ []) :
    joinSp (a :: l) = a ++ ' ' :: joinSp l := by
  cases l with
  | nil => exact absurd rfl h
  | cons b m => rfl

theorem joinSp_splitSp : ∀ s : Str, joinSp (splitSp s) = s
  | [] => rfl
  | c :: cs => by
    have ih := joinSp_splitSp cs
    by_cases hc : c = ' '
    · subst hc
      have e : splitSp (' ' :: cs) = [] :: splitSp cs := by simp [splitSp]
      rw [e, joinSp_cons _ (splitSp_ne_nil cs), ih]
      rfl
    · simp only [splitSp, if_neg hc]
      cases h : splitSp cs with
      | nil => exact absurd h (splitSp_ne_nil cs)
      | cons t ts =>
        rw [h] at ih
        cases ts with
        | nil =>
          simp only [joinSp] at ih ⊢
          exact congrArg (c :: ·) ih
        | cons u us =>
          rw [joinSp_cons _ (by simp)] at ih
          rw [joinSp_cons _ (by simp), List.cons_append, ih]

theorem splitSp_no_space : ∀ (s : Str), ' ' ∉ s → splitSp s = [s]
  | [], _ => rfl
  | c :: cs, h => by
    have hc : ¬ c = ' ' := fun e => h (by simp [e])
    have ih : splitSp cs = [cs] :=
      splitSp_no_space cs (fun m => h (List.mem_cons_of_mem c m))
    simp only [splitSp, if_neg hc, ih]

theorem splitSp_space_append : ∀ (a b : Str), ' ' ∉ a →
    splitSp (a ++ ' ' :: b) = a :: splitSp b
  | [], b, _ => by simp [splitSp]
  | c :: a, b, h => by
    have hc : ¬ c = ' ' := fun e => h (by simp [e])
    have ih := splitSp_space_append a b (fun m => h (List.mem_cons_of_mem c m))
    show splitSp (c :: (a ++ ' ' :: b)) = (c :: a) :: splitSp b
    simp only [splitSp, if_neg hc]
    rw [ih]

theorem splitSp_join_parts : ∀ (parts : List Str) (b : Str), (∀ x ∈ parts, ' ' ∉ x) →
    splitSp (joinSp (parts ++ [b])) = parts ++ splitSp b
  | [], _, _ => rfl
  | a :: parts, b, h => by
    have ih := splitSp_join_parts parts b (fun x hx => h x (List.mem_cons_of_mem a hx))
    rw [List.cons_append, joinSp_cons a (by simp),
      splitSp_space_append a (joinSp (parts ++ [b])) (h a (List.mem_cons_self a parts)),
      ih, List.cons_append]

theorem joinSp_concat_append : ∀ (parts : List Str) (b t : Str),
    joinSp (parts ++ [b]) ++ t = joinSp (parts ++ [b ++ t])
  | [], _, _ => rfl
  | a :: parts, b, t => by
    have ih := joinSp_concat_append parts b t
    simp only [List.cons_append]
    rw [joinSp_cons a (by simp), joinSp_cons a (by simp),
      List.append_assoc, List.cons_append, ih]

theorem trimCrlf_append (x : Str) : trimCrlf (x ++ crlf) = x := by
  have h : (x ++ crlf).reverse = '\n' :: '\r' :: x.reverse := by simp [crlf]
  unfold trimCrlf
  rw [h]
  simp

theorem trimLast_concat : ∀ (xs : List Str) (b : Str),
    trimLast (xs ++ [b]) = xs ++ [trimCrlf b]
  | [], _ => rfl
  | a :: xs, b => by
    cases xs with
    | nil => rfl
    | cons a2 xs2 =>
      have ih := trimLast_concat (a2 :: xs2) b
      simp only [List.cons_append] at ih ⊢
      rw [trimLast, ih]

theorem startsColon_append_crlf : ∀ {x : Str}, startsColon x = false →
    startsColon (x ++ crlf) = false
  | [], _ => by decide
  | _ :: _, h => h

theorem takeWhile_all {p : Str → Bool} : ∀ (xs : List Str),
    (∀ x ∈ xs, p x = true) → xs.takeWhile p = xs
  | [], _ => rfl
  | a :: xs, h => by
    rw [List.takeWhile_cons_of_pos (h a (List.mem_cons_self a xs)),
      takeWhile_all xs (fun x hx => h x (List.mem_cons_of_mem a hx))]

theorem dropWhile_all {p : Str → Bool} : ∀ (xs : List Str),
    (∀ x ∈ xs, p x = true) → xs.dropWhile p = []
  | [], _ => rfl
  | a :: xs, h => by
    rw [List.dropWhile_cons_of_pos (h a (List.mem_cons_self a xs))]
    exact dropWhile_all xs (fun x hx => h x (List.mem_cons_of_mem a hx))

theorem takeWhile_middle {p : Str → Bool} : ∀ (xs : List Str) (y : Str) (ys : List Str),
    (∀ x ∈ xs, p x = true) → p y = false →
    (xs ++ y :: ys).takeWhile p = xs
  | [], y, ys, _, hy => by
    simp only [List.nil_append]
    exact List.takeWhile_cons_of_neg (by simp [hy])
  | a :: xs, y, ys, h, hy => by
    rw [List.cons_append, List.takeWhile_cons_of_pos (h a (List.mem_cons_self a xs)),
      takeWhile_middle xs y ys (fun x hx => h x (List.mem_cons_of_mem a hx)) hy]

theorem dropWhile_middle {p : Str → Bool} : ∀ (xs : List Str) (y : Str) (ys : List Str),
    (∀ x ∈ xs, p x = true) → p y = false →
    (xs ++ y :: ys).dropWhile p = y :: ys
  | [], y, ys, _, hy => by
    simp only [List.nil_append]
    exact List.dropWhile_cons_of_neg (by simp [hy])
  | a :: xs, y, ys, h, hy => by
    rw [List.cons_append, List.dropWhile_cons_of_pos (h a (List.mem_cons_self a xs))]
    exact dropWhile_middle xs y ys (fun x hx => h x (List.mem_cons_of_mem a hx)) hy

/-! ### Characterizations of the codec's pieces -/

theorem finishArgs_ne_err (src ty : Str) (toks : List Str) :
    (finishArgs src ty toks).isErr = false := by
  unfold finishArgs
  cases h : collectArgs toks <;> rfl

theorem finishArgs_ok {src ty : Str} {toks : List Str} {c : Command}
    (h : finishArgs src ty toks = GoResult.ok c) :
    c.Source = src ∧ c.Typ = ty := by
  unfold finishArgs at h
  cases hc : collectArgs toks with
  | nil => rw [hc] at h; exact absurd h (by simp)
  | cons a rest =>
    rw [hc] at h
    simp only [GoResult.ok.injEq] at h
    subst h
    exact ⟨rfl, rfl⟩

theorem Raw_ok {c : Command} (nf : List Str) (fin : Str)
    (hargs : c.Args = nf ++ [fin])
    (hnf : ¬ ∃ a ∈ nf, ' ' ∈ a) :
    Raw c = GoResult.ok (joinSp
      ((if c.Source = [] then [] else [c.Source]) ++ [c.Typ] ++ nf ++
        [if ' ' ∈ fin then ':' :: fin else fin]) ++ crlf) := by
  simp only [Raw, hargs, List.getLast?_concat, List.dropLast_concat]
  rw [if_neg hnf]

theorem rawToCommand_of_split {raw t0 : Str} {l : List Str}
    (h : splitSp raw = t0 :: l) (hne : l ≠ []) (hcol : startsColon t0 = false) :
    rawToCommand raw = finishArgs [] t0 l := by
  cases l with
  | nil => exact absurd rfl hne
  | cons t1 rest =>
    simp only [rawToCommand, h]
    rw [if_neg (by simp [hcol])]

theorem collectArgs_no_colon {toks : List Str} (h : ∀ x ∈ toks, startsColon x = false) :
    collectArgs toks = toks := by
  unfold collectArgs
  rw [dropWhile_all toks (fun x hx => by rw [h x hx]; rfl)]
  exact takeWhile_all toks (fun x hx => by rw [h x hx]; rfl)

theorem collectArgs_with_colon {nf : List Str} {m : Str} (ms : List Str)
    (hnf : ∀ x ∈ nf, startsColon x = false) (hm : startsColon m = true) :
    collectArgs (nf ++ m :: ms) = nf ++ [joinSp (m.drop 1 :: ms)] := by
  unfold collectArgs
  rw [dropWhile_middle nf m ms (fun x hx => by rw [hnf x hx]; rfl) (by rw [hm]; rfl),
    takeWhile_middle nf m ms (fun x hx => by rw [hnf x hx]; rfl) (by rw [hm]; rfl)]

theorem finishArgs_of_collect {src ty : Str} {toks args : List Str}
    (h : collectArgs toks = args) (hne : args ≠ []) :
    finishArgs src ty toks = GoResult.ok ⟨src, ty, trimLast args⟩ := by
  unfold finishArgs
  rw [h]
  cases args with
  | nil => exact absurd rfl hne
  | cons a rest => rfl

/-- Parsing the wire line that `Raw` produces for a sourceless command
recovers the command, provided type and non-final arguments are free of
spaces and leading colons and the final argument, when it has no space,
does not begin with a colon. -/
theorem parse_of_Raw (ty : Str) (nf : List Str) (fin : Str)
    (hty_sp : ' ' ∉ ty) (hty_col : startsColon ty = false)
    (hnf : ∀ a ∈ nf, ' ' ∉ a ∧ startsColon a = false)
    (hfin : ' ' ∈ fin ∨ startsColon fin = false) :
    rawToCommand (joinSp ([ty] ++ nf ++ [if ' ' ∈ fin then ':' :: fin else fin]) ++ crlf)
      = GoResult.ok ⟨[], ty, nf ++ [fin]⟩ := by
  have hparts : ∀ x ∈ [ty] ++ nf, ' ' ∉ x := by
    intro x hx
    rcases List.mem_cons.mp hx with rfl | hx
    · exact hty_sp
    · exact (hnf x hx).1
  have hnocr : ' ' ∉ crlf := by decide
  by_cases hsp : ' ' ∈ fin
  · -- the final argument gets a ':' in front and is split into words
    rw [if_pos hsp]
    rcases hsw : splitSp (fin ++ crlf) with _ | ⟨w, ws⟩
    · exact absurd hsw (splitSp_ne_nil _)
    have hcolsplit : splitSp ((':' :: fin) ++ crlf) = (':' :: w) :: ws := by
      show splitSp (':' :: (fin ++ crlf)) = _
      simp only [splitSp, if_neg (by decide : ¬ (':' = ' '))]
      rw [hsw]
    have hsplit : splitSp (joinSp (([ty] ++ nf) ++ [':' :: fin]) ++ crlf)
        = ty :: (nf ++ (':' :: w) :: ws) := by
      rw [joinSp_concat_append, splitSp_join_parts ([ty] ++ nf) _ hparts, hcolsplit]
      simp
    rw [List.append_assoc] at hsplit
    rw [← List.append_assoc] at hsplit
    rw [rawToCommand_of_split hsplit (by simp) hty_col,
      finishArgs_of_collect
        (collectArgs_with_colon ws (fun x hx => (hnf x hx).2) (by rfl)) (by simp)]
    have hjw : joinSp ((':' :: w).drop 1 :: ws) = fin ++ crlf := by
      show joinSp (w :: ws) = fin ++ crlf
      rw [← hsw, joinSp_splitSp]
    rw [hjw, trimLast_concat, trimCrlf_append]
  · -- the final argument is a single token
    rw [if_neg hsp]
    have hfcol : startsColon fin = false := hfin.resolve_left hsp
    have hsplit : splitSp (joinSp (([ty] ++ nf) ++ [fin]) ++ crlf)
        = ty :: (nf ++ [fin ++ crlf]) := by
      rw [joinSp_concat_append, splitSp_join_parts ([ty] ++ nf) _ hparts,
        splitSp_no_space (fin ++ crlf)
          (fun m => (List.mem_append.mp m).elim hsp hnocr)]
      simp
    rw [rawToCommand_of_split hsplit (by simp) hty_col,
      finishArgs_of_collect
        (collectArgs_no_colon (fun x hx => by
          rcases List.mem_append.mp hx with hx | hx
          · exact (hnf x hx).2
          · rw [List.mem_singleton.mp hx]
            exact startsColon_append_crlf hfcol)) (by simp),
      trimLast_concat, trimCrlf_append]

theorem joinSp_concat_struct : ∀ (nf : List Str) (ty fTok : Str),
    joinSp (ty :: (nf ++ [fTok])) =
      ty ++ (nf.map (fun a => ' ' :: a)).flatten ++ ' ' :: fTok
  | [], ty, fTok => by
    rw [joinSp_cons ty (by simp)]
    simp [joinSp]
  | a :: nf, ty, fTok => by
    have ih := joinSp_concat_struct nf a fTok
    rw [List.cons_append, joinSp_cons ty (by simp), ih]
    simp [List.append_assoc]

/-! ### The claims -/

/-- C1, counterexample: the round-trip law fails as stated.  For the
sourced command of spec §8 the serialized line carries the source
without ':', so parsing reads the source token as the type; and for a
sourceless command whose final argument starts with ':' (and has no
space), parsing strips that ':'. -/
theorem roundtrip_claim_false :
    (Raw ⟨str "a", str "PRIVMSG", [str "#x", str "hi there"]⟩ =
        GoResult.ok (str "a PRIVMSG #x :hi there\r\n") ∧
      rawToCommand (str "a PRIVMSG #x :hi there\r\n") =
        GoResult.ok ⟨[], str "a", [str "PRIVMSG", str "#x", str "hi there"]⟩ ∧
      (⟨[], str "a", [str "PRIVMSG", str "#x", str "hi there"]⟩ : Command) ≠
        ⟨str "a", str "PRIVMSG", [str "#x", str "hi there"]⟩) ∧
    (Raw ⟨[], str "NICK", [str ":x"]⟩ = GoResult.ok (str "NICK :x\r\n") ∧
      rawToCommand (str "NICK :x\r\n") = GoResult.ok ⟨[], str "NICK", [str "x"]⟩ ∧
      (⟨[], str "NICK", [str "x"]⟩ : Command) ≠ ⟨[], str "NICK", [str ":x"]⟩) := by
  decide

/-- C1, amended: for every Command with empty source, at least one
argument, a type containing no space and not beginning with ':', whose
non-final arguments contain no space and do not begin with ':', and
whose final argument contains a space or does not begin with ':',
parsing the serialization yields the Command again. -/
theorem roundtrip_amended (c : Command)
    (hsrc : c.Source = []) (hne : c.Args ≠ [])
    (hty_sp : ' ' ∉ c.Typ) (hty_col : startsColon c.Typ = false)
    (hnf : ∀ a ∈ c.Args.dropLast, ' ' ∉ a ∧ startsColon a = false)
    (hfin : ' ' ∈ c.Args.getLastD [] ∨ startsColon (c.Args.getLastD []) = false) :
    ∃ out, Raw c = GoResult.ok out ∧ rawToCommand out = GoResult.ok c := by
  obtain ⟨nf, fin, hargs⟩ : ∃ nf fin, c.Args = nf ++ [fin] :=
    ⟨c.Args.dropLast, c.Args.getLast hne, (List.dropLast_append_getLast hne).symm⟩
  have hnf' : ∀ a ∈ nf, ' ' ∉ a ∧ startsColon a = false := by
    intro a ha
    exact hnf a (by rw [hargs, List.dropLast_concat]; exact ha)
  have hfin' : ' ' ∈ fin ∨ startsColon fin = false := by
    rw [hargs, List.getLastD_concat] at hfin
    exact hfin
  have hraw := Raw_ok nf fin hargs (fun ⟨a, ha, hsp⟩ => (hnf' a ha).1 hsp)
  rw [if_pos hsrc] at hraw
  refine ⟨_, hraw, ?_⟩
  have hp := parse_of_Raw c.Typ nf fin hty_sp hty_col hnf' hfin'
  have hc : (⟨[], c.Typ, nf ++ [fin]⟩ : Command) = c := by
    rw [← hargs, ← hsrc]
  rw [hc] at hp
  exact hp

/-- C1, witness of the amended round trip at a concrete command. -/
theorem roundtrip_amended_witness :
    ∃ out, Raw ⟨[], str "PRIVMSG", [str "#chan", str "hello world"]⟩ = GoResult.ok out ∧
      rawToCommand out = GoResult.ok ⟨[], str "PRIVMSG", [str "#chan", str "hello world"]⟩ :=
  roundtrip_amended _ rfl (by decide) (by decide) (by decide) (by decide) (by decide)

/-- C2: on a line with only a source token and a type token, no
argument is collected and the trim of the line terminator indexes an
empty list — `rawToCommand` panics instead of returning a result. -/
theorem parse_noargs_panics :
    rawToCommand (str ":server.name 001\r\n") = GoResult.panic := by
  decide

/-- C3: the wire line `Raw` produces for a Command with non-empty
source does not begin with ':'; the source is emitted verbatim. -/
theorem raw_source_without_colon :
    Raw ⟨str "a", str "PRIVMSG", [str "#x", str "hi there"]⟩ =
      GoResult.ok (str "a PRIVMSG #x :hi there\r\n") ∧
    startsColon (str "a PRIVMSG #x :hi there\r\n") = false := by
  decide

/-- C4: for a Command with at least one argument, `Raw` returns its
error exactly when some non-final argument contains a space; a space in
the final argument alone never makes it fail. -/
theorem raw_err_iff_nonfinal_space (c : Command) (hne : c.Args ≠ []) :
    (Raw c).isErr = true ↔ ∃ a ∈ c.Args.dropLast, ' ' ∈ a := by
  have hfin : c.Args.getLast? = some (c.Args.getLast hne) :=
    List.getLast?_eq_getLast c.Args hne
  unfold Raw
  simp only [hfin]
  by_cases hsp : ∃ a ∈ c.Args.dropLast, ' ' ∈ a
  · rw [if_pos hsp]
    simp [GoResult.isErr, hsp]
  · rw [if_neg hsp]
    simp [GoResult.isErr, hsp]

/-- C4, witness at spec §8's example `FOO ["a b", "c"]`. -/
theorem raw_err_iff_nonfinal_space_witness :
    (Raw ⟨[], str "FOO", [str "a b", str "c"]⟩).isErr = true :=
  (raw_err_iff_nonfinal_space ⟨[], str "FOO", [str "a b", str "c"]⟩ (by decide)).mpr
    (by decide)

/-- C5: `rawToCommand` returns its malformed-command error exactly when
the line splits into fewer than two space-separated tokens; in
particular it fails on `"BAD\r\n"`. -/
theorem parse_err_iff_fewer_than_two_tokens :
    (∀ s : Str,
      rawToCommand s = GoResult.err "invalid command (less than two entries in command)"
        ↔ (splitSp s).length < 2) ∧
    rawToCommand (str "BAD\r\n") =
      GoResult.err "invalid command (less than two entries in command)" := by
  constructor
  · intro s
    rcases h : splitSp s with _ | ⟨t0, l⟩
    · exact absurd h (splitSp_ne_nil s)
    rcases l with _ | ⟨t1, rest⟩
    · constructor
      · intro _
        simp
      · intro _
        simp [rawToCommand, h]
    · have he : (rawToCommand s).isErr = false := by
        simp only [rawToCommand, h]
        split
        · exact finishArgs_ne_err _ _ _
        · exact finishArgs_ne_err _ _ _
      constructor
      · intro hh
        rw [hh] at he
        exact absurd he (by simp [GoResult.isErr])
      · intro hh
        exact absurd hh (by simp)
  · decide

/-- C5, witness: the single-token line `"HELLO\r\n"` is rejected. -/
theorem parse_err_iff_fewer_than_two_tokens_witness :
    (splitSp (str "HELLO\r\n")).length < 2 :=
  (parse_err_iff_fewer_than_two_tokens.1 (str "HELLO\r\n")).mp (by decide)

/-- C6: on every Command with at least one argument and no space in a
non-final argument, `Raw` produces exactly the line the spec describes:
source (if non-empty) and type space-separated, non-final arguments
verbatim, the final argument prefixed with ':' iff it contains a space,
all space-joined and ended with CR LF (`serializeSpec`). -/
theorem raw_matches_spec_serialize (c : Command) (hne : c.Args ≠ [])
    (hnf : ∀ a ∈ c.Args.dropLast, ' ' ∉ a) :
    Raw c = GoResult.ok (serializeSpec c) := by
  obtain ⟨nf, fin, hargs⟩ : ∃ nf fin, c.Args = nf ++ [fin] :=
    ⟨c.Args.dropLast, c.Args.getLast hne, (List.dropLast_append_getLast hne).symm⟩
  have hnf' : ∀ a ∈ nf, ' ' ∉ a := by
    intro a ha
    exact hnf a (by rw [hargs, List.dropLast_concat]; exact ha)
  rw [Raw_ok nf fin hargs (fun ⟨a, ha, hsp⟩ => hnf' a ha hsp)]
  unfold serializeSpec
  rw [hargs, List.dropLast_concat, List.getLastD_concat]
  congr 1
  by_cases hs : c.Source = []
  · rw [if_pos hs, if_pos hs]
    show joinSp (c.Typ :: (nf ++ [_])) ++ crlf = _
    rw [joinSp_concat_struct]
    by_cases hsp : ' ' ∈ fin
    · rw [if_pos hsp, if_pos hsp]
      simp [List.append_assoc]
    · rw [if_neg hsp, if_neg hsp]
      simp [List.append_assoc]
  · rw [if_neg hs, if_neg hs]
    show joinSp (c.Source :: (c.Typ :: (nf ++ [_]))) ++ crlf = _
    rw [joinSp_cons _ (by simp), joinSp_concat_struct]
    by_cases hsp : ' ' ∈ fin
    · rw [if_pos hsp, if_pos hsp]
      simp [List.append_assoc]
    · rw [if_neg hsp, if_neg hsp]
      simp [List.append_assoc]

/-- C6, witness at the spec's two concrete serializations. -/
theorem raw_matches_spec_serialize_witness :
    Raw ⟨[], str "NICK", [str "bob"]⟩ = GoResult.ok (str "NICK bob\r\n") ∧
    Raw ⟨str "a", str "PRIVMSG", [str "#x", str "hi there"]⟩ =
      GoResult.ok (str "a PRIVMSG #x :hi there\r\n") := by
  constructor
  · rw [raw_matches_spec_serialize _ (by decide) (by decide)]
    decide
  · rw [raw_matches_spec_serialize _ (by decide) (by decide)]
    decide

/-- C7: the spec's concrete parse of a sourced PRIVMSG line. -/
theorem parse_privmsg_example :
    rawToCommand (str ":irc.example.com PRIVMSG #chan :hello world\r\n") =
      GoResult.ok ⟨str "irc.example.com", str "PRIVMSG", [str "#chan", str "hello world"]⟩ := by
  decide

/-- C8: the keepalive responder replies `PONG <first argument>` to a
PING with arguments, reports a malformed PING without sending when
there are none, and the spec's PING line produces the PONG line. -/
theorem keepalive_behavior :
    (∀ (c : Command) (a : Str) (rest : List Str), c.Typ = str "PING" → c.Args = a :: rest →
      keepaliveAct c = KAction.reply ⟨[], str "PONG", [a]⟩) ∧
    (∀ c : Command, c.Typ = str "PING" → c.Args = [] →
      keepaliveAct c = KAction.reportMalformed) ∧
    rawToCommand (str "PING :irc.example.com\r\n") =
      GoResult.ok ⟨[], str "PING", [str "irc.example.com"]⟩ ∧
    keepaliveAct ⟨[], str "PING", [str "irc.example.com"]⟩ =
      KAction.reply ⟨[], str "PONG", [str "irc.example.com"]⟩ ∧
    sendLine (str "PONG") [str "irc.example.com"] =
      GoResult.ok (str "PONG irc.example.com\r\n") := by
  refine ⟨?_, ?_, by decide, by decide, by decide⟩
  · intro c a rest hty hargs
    unfold keepaliveAct
    rw [if_pos hty, hargs]
  · intro c hty hargs
    unfold keepaliveAct
    rw [if_pos hty, hargs]

/-- C8, witness at a PING carrying one argument. -/
theorem keepalive_behavior_witness :
    keepaliveAct ⟨str "irc.example.com", str "PING", [str "xyz"]⟩ =
      KAction.reply ⟨[], str "PONG", [str "xyz"]⟩ :=
  keepalive_behavior.1 _ _ _ rfl rfl

/-- C9, counterexample: parsing `" a\r\n"` (leading space, so the first
token is empty) succeeds and yields a Command whose type is empty. -/
theorem parse_type_empty_example :
    rawToCommand (str " a\r\n") = GoResult.ok ⟨[], [], [str "a"]⟩ ∧
    (⟨[], [], [str "a"]⟩ : Command).Typ = [] := by
  decide

/-- C9, amended: every Command successfully returned by `rawToCommand`
takes its type from one of the line's tokens; when no token of the line
is empty, the type is non-empty. -/
theorem parse_type_nonempty_amended (s : Str) (c : Command)
    (hok : rawToCommand s = GoResult.ok c)
    (htoks : ∀ t ∈ splitSp s, t ≠ ([] : Str)) :
    c.Typ ≠ [] := by
  rcases h : splitSp s with _ | ⟨t0, l⟩
  · exact absurd h (splitSp_ne_nil s)
  rcases l with _ | ⟨t1, rest⟩
  · simp only [rawToCommand, h] at hok
    exact absurd hok (by simp)
  · simp only [rawToCommand, h] at hok
    by_cases hcol : startsColon t0 = true
    · rw [if_pos hcol] at hok
      rw [(finishArgs_ok hok).2]
      exact htoks t1 (by rw [h]; simp)
    · rw [if_neg hcol] at hok
      rw [(finishArgs_ok hok).2]
      exact htoks t0 (by rw [h]; simp)

/-- C9, witness: the amended statement applied to the PING line. -/
theorem parse_type_nonempty_amended_witness : (str "PING" : Str) ≠ [] :=
  parse_type_nonempty_amended (str "PING :irc.example.com\r\n")
    ⟨[], str "PING", [str "irc.example.com"]⟩ (by decide) (by decide)

/-- C10: `Raw` on a Command with an empty argument list panics (the
out-of-range slice) rather than returning an error, and so does the
serialization performed by `Send` with a type and zero arguments. -/
theorem raw_empty_args_panics (src ty : Str) :
    Raw ⟨src, ty, []⟩ = GoResult.panic ∧ sendLine ty [] = GoResult.panic ∧
    (Raw ⟨src, ty, []⟩).isErr = false :=
  ⟨rfl, rfl, rfl⟩

/-- C10, witness at a concrete type with zero arguments. -/
theorem raw_empty_args_panics_witness :
    Raw ⟨str "x", str "QUIT", []⟩ = GoResult.panic :=
  (raw_empty_args_panics (str "x") (str "QUIT")).1

end Girc
